import Mathlib

/-!
Verification of the pulseaudio-lambda stem-separator streaming pipeline.

Each definition below is a shallow embedding of a function of the Python
source, with the source location recorded in its doc comment.  Machine
floats are modelled as rationals, byte buffers as lists of naturals
below 256, and tensors as per-channel lists of samples.
-/

namespace PalStem

/-! ## Mixing policy
`Args.get_effective_gains`, from
`pal_stem_separator/stream_separator_args.py` lines 290-306 (identical
copy in `ml/stream_separator.py` lines 80-96). -/

/-- Embedding of `Args.get_effective_gains`: iterates over the indices of
`gains`; a muted stem gets 0, a non-soloed stem gets 0 when any stem is
soloed, and otherwise the configured gain is used.  Out-of-range list
access (impossible for the well-formed four-stem configurations the
theorems quantify over) is modelled with default values. -/
def get_effective_gains (gains : List ℚ) (muted soloed : List Bool) : List ℚ :=
  let any_soloed := soloed.any id
  (List.range gains.length).map fun i =>
    if muted.getD i false then 0
    else if any_soloed ∧ ¬ (soloed.getD i false) then 0
    else gains.getD i 0

theorem get_effective_gains_length (gains : List ℚ) (muted soloed : List Bool) :
    (get_effective_gains gains muted soloed).length = gains.length := by
  simp [get_effective_gains]

theorem get_effective_gains_getD (gains : List ℚ) (muted soloed : List Bool)
    (i : ℕ) (hi : i < gains.length) :
    (get_effective_gains gains muted soloed).getD i 0 =
      (if muted.getD i false then 0
       else if soloed.any id ∧ ¬ (soloed.getD i false) then 0
       else gains.getD i 0) := by
  unfold get_effective_gains
  rw [List.getD_eq_getElem?_getD, List.getElem?_map, List.getElem?_range hi]
  simp

/-- C1: for a four-stem configuration in which no stem is simultaneously
muted and soloed, `get_effective_gains` yields 0 for every muted (and not
soloed) stem, 0 for every non-soloed stem when at least one stem is
soloed, and the configured raw gain for every other stem; in particular
gains `[50,100,80,100]` with stem 1 muted give `[50,0,80,100]`, and with
stem 2 soloed give `[0,0,80,0]`. -/
theorem effective_gains_mute_solo_spec
    (gains : List ℚ) (muted soloed : List Bool)
    (hg : gains.length = 4) (hm : muted.length = 4) (hs : soloed.length = 4)
    (hnc : ∀ i, i < 4 → ¬(muted.getD i false = true ∧ soloed.getD i false = true)) :
    (∀ i, i < 4 →
      (muted.getD i false = true → soloed.getD i false = false →
        (get_effective_gains gains muted soloed).getD i 0 = 0) ∧
      (soloed.any id = true → soloed.getD i false = false →
        (get_effective_gains gains muted soloed).getD i 0 = 0) ∧
      (muted.getD i false = false → (soloed.any id = true → soloed.getD i false = true) →
        (get_effective_gains gains muted soloed).getD i 0 = gains.getD i 0))
    ∧ get_effective_gains [50, 100, 80, 100]
        [false, true, false, false] [false, false, false, false] = [50, 0, 80, 100]
    ∧ get_effective_gains [50, 100, 80, 100]
        [false, false, false, false] [false, false, true, false] = [0, 0, 80, 0] := by
  refine ⟨fun i hi => ?_, by decide, by decide⟩
  have hchar := get_effective_gains_getD gains muted soloed i (hg ▸ hi)
  refine ⟨fun hmi _ => ?_, fun hany hsi => ?_, fun hmi hsolo => ?_⟩
  · rw [hchar, if_pos hmi]
  · rw [hchar]
    by_cases hmi : muted.getD i false = true
    · rw [if_pos hmi]
    · rw [if_neg hmi, if_pos ⟨hany, by rw [hsi]; decide⟩]
  · rw [hchar, if_neg (show ¬(muted.getD i false = true) by rw [hmi]; decide), if_neg]
    rintro ⟨hany, hns⟩
    exact hns (hsolo hany)

/-- Witness for `effective_gains_mute_solo_spec` at a concrete
configuration. -/
theorem effective_gains_mute_solo_spec_witness :
    (∀ i, i < 4 →
      ¬(([false, true, false, false] : List Bool).getD i false = true ∧
        ([false, false, false, false] : List Bool).getD i false = true)) ∧
    (∀ i, i < 4 →
      ((([false, true, false, false] : List Bool).getD i false = true →
         ([false, false, false, false] : List Bool).getD i false = false →
        (get_effective_gains [50, 100, 80, 100] [false, true, false, false]
          [false, false, false, false]).getD i 0 = 0) ∧
      (([false, false, false, false] : List Bool).any id = true →
        ([false, false, false, false] : List Bool).getD i false = false →
        (get_effective_gains [50, 100, 80, 100] [false, true, false, false]
          [false, false, false, false]).getD i 0 = 0) ∧
      ((([false, true, false, false] : List Bool).getD i false = false →
        (([false, false, false, false] : List Bool).any id = true →
          ([false, false, false, false] : List Bool).getD i false = true) →
        (get_effective_gains [50, 100, 80, 100] [false, true, false, false]
          [false, false, false, false]).getD i 0 =
          ([50, 100, 80, 100] : List ℚ).getD i 0))))
    ∧ get_effective_gains [50, 100, 80, 100]
        [false, true, false, false] [false, false, false, false] = [50, 0, 80, 100]
    ∧ get_effective_gains [50, 100, 80, 100]
        [false, false, false, false] [false, false, true, false] = [0, 0, 80, 0] :=
  ⟨by decide,
   effective_gains_mute_solo_spec [50, 100, 80, 100] [false, true, false, false]
     [false, false, false, false] rfl rfl rfl (by decide)⟩

/-- C2 counterexample: with stem 0 both muted and soloed, the mute branch
fires first in `get_effective_gains`, so the soloed stem gets effective
gain 0 and not its configured gain 50 — solo does not override mute. -/
theorem solo_overrides_mute_counterexample :
    ([true, false, false, false] : List Bool).getD 0 false = true ∧
    (get_effective_gains [50, 100, 80, 100] [true, false, false, false]
      [true, false, false, false]).getD 0 0 = 0 ∧
    ((50 : ℚ) ≠ 0) := by decide

/-- C2 amended: a soloed stem receives its configured gain only when it is
not also muted; when a stem is both muted and soloed the mute branch wins
and the stem gets 0; and every non-soloed stem gets 0 whenever any stem is
soloed, regardless of its mute flag. -/
theorem solo_mute_interaction
    (gains : List ℚ) (muted soloed : List Bool)
    (hg : gains.length = 4) (hm : muted.length = 4) (hs : soloed.length = 4)
    (i : ℕ) (hi : i < 4) :
    (soloed.getD i false = true → muted.getD i false = false →
      (get_effective_gains gains muted soloed).getD i 0 = gains.getD i 0)
    ∧ (soloed.getD i false = true → muted.getD i false = true →
      (get_effective_gains gains muted soloed).getD i 0 = 0)
    ∧ (soloed.any id = true → soloed.getD i false = false →
      (get_effective_gains gains muted soloed).getD i 0 = 0) := by
  have hchar := get_effective_gains_getD gains muted soloed i (hg ▸ hi)
  refine ⟨fun hsi hmi => ?_, fun hsi hmi => ?_, fun hany hsi => ?_⟩
  · rw [hchar, if_neg (show ¬(muted.getD i false = true) by rw [hmi]; decide),
      if_neg (show ¬(soloed.any id = true ∧ ¬soloed.getD i false = true) by
        rintro ⟨-, hns⟩; exact hns hsi)]
  · rw [hchar, if_pos hmi]
  · rw [hchar]
    by_cases hmi : muted.getD i false = true
    · rw [if_pos hmi]
    · rw [if_neg hmi, if_pos ⟨hany, by rw [hsi]; decide⟩]

/-- Witness for `solo_mute_interaction` at a concrete configuration. -/
theorem solo_mute_interaction_witness :
    (((([true, false, false, false] : List Bool).getD 0 false = true →
        ([true, false, false, false] : List Bool).getD 0 false = false →
      (get_effective_gains [50, 100, 80, 100] [true, false, false, false]
        [true, false, false, false]).getD 0 0 = ([50, 100, 80, 100] : List ℚ).getD 0 0))
    ∧ (([true, false, false, false] : List Bool).getD 0 false = true →
        ([true, false, false, false] : List Bool).getD 0 false = true →
      (get_effective_gains [50, 100, 80, 100] [true, false, false, false]
        [true, false, false, false]).getD 0 0 = 0)
    ∧ (([true, false, false, false] : List Bool).any id = true →
        ([true, false, false, false] : List Bool).getD 0 false = false →
      (get_effective_gains [50, 100, 80, 100] [true, false, false, false]
        [true, false, false, false]).getD 0 0 = 0)) :=
  solo_mute_interaction [50, 100, 80, 100] [true, false, false, false]
    [true, false, false, false] rfl rfl rfl 0 (by decide)

/-! ## Stats accumulator
`pal_stem_separator/stats.py`: `IntSum`/`FloatSum` counters combine by
summation, `FloatLast.mappend` keeps `other` when `other` is non-null
(lines 59-66), and `Stats.mappend` combines the ten fields pairwise
(lines 84-97). -/

/-- The payload of a stats snapshot (`StatsData`, stats.py lines 68-82):
nine counters plus the last-known latency.  `IntSum` counters are
integers, `FloatSum` counters and the latency are rationals, the unset
latency (`FloatLast(None)`) is `none`. -/
structure StatsData where
  input_bytes : ℤ
  input_samples : ℤ
  input_secs : ℚ
  processed_bytes : ℤ
  processed_samples : ℤ
  processed_secs : ℚ
  output_bytes : ℤ
  output_samples : ℤ
  output_secs : ℚ
  latency_secs : Option ℚ
deriving DecidableEq

/-- `FloatLast.mappend` (stats.py lines 63-66): if `other` holds a value,
keep `other`, else keep `self`. -/
def floatLast_mappend (a b : Option ℚ) : Option ℚ :=
  if b.isSome then b else a

/-- `Stats.mappend` (stats.py lines 93-97): pairwise `mappend` of every
field — sums for the counters, `floatLast_mappend` for the latency. -/
def stats_mappend (a b : StatsData) : StatsData where
  input_bytes := a.input_bytes + b.input_bytes
  input_samples := a.input_samples + b.input_samples
  input_secs := a.input_secs + b.input_secs
  processed_bytes := a.processed_bytes + b.processed_bytes
  processed_samples := a.processed_samples + b.processed_samples
  processed_secs := a.processed_secs + b.processed_secs
  output_bytes := a.output_bytes + b.output_bytes
  output_samples := a.output_samples + b.output_samples
  output_secs := a.output_secs + b.output_secs
  latency_secs := floatLast_mappend a.latency_secs b.latency_secs

/-- `Stats.mempty` (stats.py lines 89-91): all counters zero, latency
unset. -/
def stats_mempty : StatsData :=
  ⟨0, 0, 0, 0, 0, 0, 0, 0, 0, none⟩

theorem floatLast_mappend_assoc (a b c : Option ℚ) :
    floatLast_mappend (floatLast_mappend a b) c =
      floatLast_mappend a (floatLast_mappend b c) := by
  cases c <;> cases b <;> simp [floatLast_mappend]

/-- C6 counterexample: the stats fold is not commutative — when both
snapshots carry a non-null latency, `fold(a,b)` keeps `b`'s latency while
`fold(b,a)` keeps `a`'s, so they differ at concrete snapshots whose
latencies are 1 and 2 seconds. -/
theorem stats_fold_not_commutative :
    stats_mappend ⟨0, 0, 0, 0, 0, 0, 0, 0, 0, some 1⟩
        ⟨0, 0, 0, 0, 0, 0, 0, 0, 0, some 2⟩ ≠
      stats_mappend ⟨0, 0, 0, 0, 0, 0, 0, 0, 0, some 2⟩
        ⟨0, 0, 0, 0, 0, 0, 0, 0, 0, some 1⟩ := by
  intro h
  have hl := congrArg StatsData.latency_secs h
  simp [stats_mappend, floatLast_mappend] at hl

/-- C6 amended: the stats fold is a monoid — associative for all
snapshots, with `stats_mempty` as two-sided identity — and its nine
counter fields always combine commutatively; the fold commutes in full
whenever at most one of the two snapshots carries a non-null latency (the
latency field keeps the right-hand operand's non-null value, so two set
latencies do not commute). -/
theorem stats_fold_monoid (a b c : StatsData) :
    stats_mappend (stats_mappend a b) c = stats_mappend a (stats_mappend b c)
    ∧ stats_mappend a stats_mempty = a
    ∧ stats_mappend stats_mempty a = a
    ∧ (stats_mappend a b).input_bytes = (stats_mappend b a).input_bytes
    ∧ (stats_mappend a b).input_samples = (stats_mappend b a).input_samples
    ∧ (stats_mappend a b).input_secs = (stats_mappend b a).input_secs
    ∧ (stats_mappend a b).processed_bytes = (stats_mappend b a).processed_bytes
    ∧ (stats_mappend a b).processed_samples = (stats_mappend b a).processed_samples
    ∧ (stats_mappend a b).processed_secs = (stats_mappend b a).processed_secs
    ∧ (stats_mappend a b).output_bytes = (stats_mappend b a).output_bytes
    ∧ (stats_mappend a b).output_samples = (stats_mappend b a).output_samples
    ∧ (stats_mappend a b).output_secs = (stats_mappend b a).output_secs
    ∧ ((a.latency_secs = none ∨ b.latency_secs = none) →
        stats_mappend a b = stats_mappend b a) := by
  refine ⟨?_, ?_, ?_, ?_, ?_, ?_, ?_, ?_, ?_, ?_, ?_, ?_, ?_⟩
  · simp [stats_mappend, floatLast_mappend_assoc, add_assoc]
  · cases a with
    | mk i1 i2 i3 p1 p2 p3 o1 o2 o3 lat =>
      simp [stats_mappend, stats_mempty, floatLast_mappend]
  · cases a with
    | mk i1 i2 i3 p1 p2 p3 o1 o2 o3 lat =>
      cases lat <;> simp [stats_mappend, stats_mempty, floatLast_mappend]
  all_goals simp [stats_mappend, add_comm]
  intro hlat
  rcases hlat with h | h
  · cases hb : b.latency_secs <;> simp [floatLast_mappend, h, hb]
  · cases ha : a.latency_secs <;> simp [floatLast_mappend, h, ha]

/-- Witness for `stats_fold_monoid` at concrete snapshots (the left one
has latency unset, so the conditional commutativity conjunct applies
non-vacuously). -/
theorem stats_fold_monoid_witness :
    ((⟨1, 2, 3, 4, 5, 6, 7, 8, 9, none⟩ : StatsData).latency_secs = none ∨
      (⟨9, 8, 7, 6, 5, 4, 3, 2, 1, some 5⟩ : StatsData).latency_secs = none)
    ∧ (stats_mappend
        (stats_mappend ⟨1, 2, 3, 4, 5, 6, 7, 8, 9, none⟩
          ⟨9, 8, 7, 6, 5, 4, 3, 2, 1, some 5⟩) ⟨0, 0, 1, 0, 0, 1, 0, 0, 1, some 7⟩ =
       stats_mappend ⟨1, 2, 3, 4, 5, 6, 7, 8, 9, none⟩
        (stats_mappend ⟨9, 8, 7, 6, 5, 4, 3, 2, 1, some 5⟩ ⟨0, 0, 1, 0, 0, 1, 0, 0, 1, some 7⟩)
    ∧ stats_mappend ⟨1, 2, 3, 4, 5, 6, 7, 8, 9, none⟩ stats_mempty =
        ⟨1, 2, 3, 4, 5, 6, 7, 8, 9, none⟩
    ∧ stats_mappend stats_mempty ⟨1, 2, 3, 4, 5, 6, 7, 8, 9, none⟩ =
        ⟨1, 2, 3, 4, 5, 6, 7, 8, 9, none⟩
    ∧ (stats_mappend ⟨1, 2, 3, 4, 5, 6, 7, 8, 9, none⟩
        ⟨9, 8, 7, 6, 5, 4, 3, 2, 1, some 5⟩).input_bytes =
       (stats_mappend ⟨9, 8, 7, 6, 5, 4, 3, 2, 1, some 5⟩
        ⟨1, 2, 3, 4, 5, 6, 7, 8, 9, none⟩).input_bytes
    ∧ (stats_mappend ⟨1, 2, 3, 4, 5, 6, 7, 8, 9, none⟩
        ⟨9, 8, 7, 6, 5, 4, 3, 2, 1, some 5⟩).input_samples =
       (stats_mappend ⟨9, 8, 7, 6, 5, 4, 3, 2, 1, some 5⟩
        ⟨1, 2, 3, 4, 5, 6, 7, 8, 9, none⟩).input_samples
    ∧ (stats_mappend ⟨1, 2, 3, 4, 5, 6, 7, 8, 9, none⟩
        ⟨9, 8, 7, 6, 5, 4, 3, 2, 1, some 5⟩).input_secs =
       (stats_mappend ⟨9, 8, 7, 6, 5, 4, 3, 2, 1, some 5⟩
        ⟨1, 2, 3, 4, 5, 6, 7, 8, 9, none⟩).input_secs
    ∧ (stats_mappend ⟨1, 2, 3, 4, 5, 6, 7, 8, 9, none⟩
        ⟨9, 8, 7, 6, 5, 4, 3, 2, 1, some 5⟩).processed_bytes =
       (stats_mappend ⟨9, 8, 7, 6, 5, 4, 3, 2, 1, some 5⟩
        ⟨1, 2, 3, 4, 5, 6, 7, 8, 9, none⟩).processed_bytes
    ∧ (stats_mappend ⟨1, 2, 3, 4, 5, 6, 7, 8, 9, none⟩
        ⟨9, 8, 7, 6, 5, 4, 3, 2, 1, some 5⟩).processed_samples =
       (stats_mappend ⟨9, 8, 7, 6, 5, 4, 3, 2, 1, some 5⟩
        ⟨1, 2, 3, 4, 5, 6, 7, 8, 9, none⟩).processed_samples
    ∧ (stats_mappend ⟨1, 2, 3, 4, 5, 6, 7, 8, 9, none⟩
        ⟨9, 8, 7, 6, 5, 4, 3, 2, 1, some 5⟩).processed_secs =
       (stats_mappend ⟨9, 8, 7, 6, 5, 4, 3, 2, 1, some 5⟩
        ⟨1, 2, 3, 4, 5, 6, 7, 8, 9, none⟩).processed_secs
    ∧ (stats_mappend ⟨1, 2, 3, 4, 5, 6, 7, 8, 9, none⟩
        ⟨9, 8, 7, 6, 5, 4, 3, 2, 1, some 5⟩).output_bytes =
       (stats_mappend ⟨9, 8, 7, 6, 5, 4, 3, 2, 1, some 5⟩
        ⟨1, 2, 3, 4, 5, 6, 7, 8, 9, none⟩).output_bytes
    ∧ (stats_mappend ⟨1, 2, 3, 4, 5, 6, 7, 8, 9, none⟩
        ⟨9, 8, 7, 6, 5, 4, 3, 2, 1, some 5⟩).output_samples =
       (stats_mappend ⟨9, 8, 7, 6, 5, 4, 3, 2, 1, some 5⟩
        ⟨1, 2, 3, 4, 5, 6, 7, 8, 9, none⟩).output_samples
    ∧ (stats_mappend ⟨1, 2, 3, 4, 5, 6, 7, 8, 9, none⟩
        ⟨9, 8, 7, 6, 5, 4, 3, 2, 1, some 5⟩).output_secs =
       (stats_mappend ⟨9, 8, 7, 6, 5, 4, 3, 2, 1, some 5⟩
        ⟨1, 2, 3, 4, 5, 6, 7, 8, 9, none⟩).output_secs
    ∧ stats_mappend ⟨1, 2, 3, 4, 5, 6, 7, 8, 9, none⟩ ⟨9, 8, 7, 6, 5, 4, 3, 2, 1, some 5⟩ =
       stats_mappend ⟨9, 8, 7, 6, 5, 4, 3, 2, 1, some 5⟩ ⟨1, 2, 3, 4, 5, 6, 7, 8, 9, none⟩) :=
  ⟨Or.inl rfl, by
    obtain ⟨h1, h2, h3, h4, h5, h6, h7, h8, h9, h10, h11, h12, h13⟩ :=
      stats_fold_monoid ⟨1, 2, 3, 4, 5, 6, 7, 8, 9, none⟩
        ⟨9, 8, 7, 6, 5, 4, 3, 2, 1, some 5⟩ ⟨0, 0, 1, 0, 0, 1, 0, 0, 1, some 7⟩
    exact ⟨h1, h2, h3, h4, h5, h6, h7, h8, h9, h10, h11, h12, h13 (Or.inl rfl)⟩⟩

/-! ## PCM codec
Decoding: `SampleSpec.read_chunk` (ml/buffer_hs_tasnet.py lines 39-85).
Encoding: `queue_output_chunk` (app/main.py lines 186-221, identical copy
in ml/stream_separator.py lines 345-401).  Byte buffers are lists of
naturals below 256; `struct.pack`/`struct.unpack` with format `<h`/`<i`
are modelled as little-endian two's-complement serialization. -/

/-- Recombine little-endian base-256 digits into an unsigned value, as
`struct.unpack` does before sign interpretation. -/
def leBytesToNat (bs : List ℕ) : ℕ :=
  bs.foldr (fun b acc => b + 256 * acc) 0

/-- `struct.pack '<h'` / `'<i'`: the `nbytes` little-endian bytes of the
two's-complement representation of `z`. -/
def intToLEBytes (nbytes : ℕ) (z : ℤ) : List ℕ :=
  (List.range nbytes).map fun i => ((z % (2 ^ (8 * nbytes) : ℤ)).toNat / 256 ^ i) % 256

/-- `struct.unpack '<h'` / `'<i'`: interpret `nbytes` little-endian bytes
as a signed two's-complement integer. -/
def leBytesToInt (nbytes : ℕ) (bs : List ℕ) : ℤ :=
  let u := leBytesToNat bs
  if u < 2 ^ (8 * nbytes - 1) then (u : ℤ) else (u : ℤ) - 2 ^ (8 * nbytes)

theorem leBytesToNat_digits (n : ℕ) : ∀ m : ℕ,
    leBytesToNat ((List.range n).map fun i => m / 256 ^ i % 256) = m % 256 ^ n := by
  induction n with
  | zero => intro m; simp [leBytesToNat, Nat.mod_one]
  | succ n ih =>
    intro m
    rw [List.range_succ_eq_map]
    simp only [List.map_cons, List.map_map, pow_zero, Nat.div_one]
    have hfun : ((fun i => m / 256 ^ i % 256) ∘ Nat.succ) =
        fun i => (m / 256) / 256 ^ i % 256 := by
      funext i
      simp only [Function.comp_apply, pow_succ', Nat.div_div_eq_div_mul]
    rw [hfun]
    have hcons : ∀ (a : ℕ) (l : List ℕ),
        leBytesToNat (a :: l) = a + 256 * leBytesToNat l := by
      intro a l; simp [leBytesToNat]
    rw [hcons, ih (m / 256), pow_succ', Nat.mod_mul]

theorem intToLEBytes_roundtrip (n : ℕ) (hn : 1 ≤ n) (z : ℤ)
    (hlo : -(2 ^ (8 * n - 1)) ≤ z) (hhi : z < 2 ^ (8 * n - 1)) :
    leBytesToInt n (intToLEBytes n z) = z := by
  have hMKz : (2 : ℤ) ^ (8 * n) = 2 * 2 ^ (8 * n - 1) := by
    rw [← pow_succ']
    congr 1
    omega
  have hKc : ((2 ^ (8 * n - 1) : ℕ) : ℤ) = 2 ^ (8 * n - 1) := by push_cast; ring
  have hMc : ((2 ^ (8 * n) : ℕ) : ℤ) = 2 ^ (8 * n) := by push_cast; ring
  have h256 : (256 : ℕ) ^ n = 2 ^ (8 * n) := by
    rw [show (256 : ℕ) = 2 ^ 8 by norm_num, ← pow_mul]
  have hnat := leBytesToNat_digits n ((z % ((2 : ℤ) ^ (8 * n))).toNat)
  have hpos : (0 : ℤ) < (2 : ℤ) ^ (8 * n) := by positivity
  have hnn := Int.emod_nonneg z (ne_of_gt hpos)
  have hlt := Int.emod_lt_of_pos z hpos
  have hmodlt : (z % ((2 : ℤ) ^ (8 * n))).toNat < 2 ^ (8 * n) := by omega
  unfold leBytesToInt intToLEBytes
  rw [hnat, h256, Nat.mod_eq_of_lt hmodlt]
  rcases le_or_lt 0 z with hz | hz
  · have hmod : z % ((2 : ℤ) ^ (8 * n)) = z :=
      Int.emod_eq_of_lt hz (by omega)
    rw [hmod, if_pos (by omega)]
    omega
  · have hshift := @Int.add_mul_emod_self_left z ((2 : ℤ) ^ (8 * n)) 1
    rw [mul_one] at hshift
    have hmod : z % ((2 : ℤ) ^ (8 * n)) = z + 2 ^ (8 * n) := by
      rw [← hshift]
      exact Int.emod_eq_of_lt (by omega) (by omega)
    rw [hmod, if_neg (by omega)]
    omega

/-- `torch.clamp(audio_tensor, -1.0, 1.0)` (app/main.py line 188). -/
def clamp1 (x : ℚ) : ℚ := max (-1) (min 1 x)

/-- `torch.Tensor.round`: round half to even (the rounding mode of
`(audio_clamped * 32767).round()`, app/main.py lines 193 and 195). -/
def roundHalfEven (q : ℚ) : ℤ :=
  if Int.fract q < 1 / 2 then ⌊q⌋
  else if 1 / 2 < Int.fract q then ⌈q⌉
  else if ⌊q⌋ % 2 = 0 then ⌊q⌋ else ⌊q⌋ + 1

theorem roundHalfEven_err (q : ℚ) : |(roundHalfEven q : ℚ) - q| ≤ 1 / 2 := by
  have hfr : Int.fract q = q - ⌊q⌋ := rfl
  have hf0 := Int.fract_nonneg q
  have hf1 := Int.fract_lt_one q
  have hceil : ((⌈q⌉ : ℚ)) ≤ (⌊q⌋ : ℚ) + 1 := by
    exact_mod_cast Int.ceil_le_floor_add_one q
  have hleceil := Int.le_ceil q
  rw [roundHalfEven]
  split
  · rw [abs_le]; constructor <;> linarith
  · split
    · rw [abs_le]; constructor <;> linarith
    · split
      · rw [abs_le]; constructor <;> linarith
      · push_cast
        rw [abs_le]; constructor <;> linarith

theorem roundHalfEven_mem (q : ℚ) :
    ⌊q⌋ ≤ roundHalfEven q ∧ roundHalfEven q ≤ ⌈q⌉ := by
  have hfr : Int.fract q = q - ⌊q⌋ := rfl
  have hfc := Int.floor_le_ceil q
  have hleceil := Int.le_ceil q
  rw [roundHalfEven]
  split
  · exact ⟨le_refl _, hfc⟩
  · split
    · exact ⟨hfc, le_refl _⟩
    · split
      · exact ⟨le_refl _, hfc⟩
      · refine ⟨by omega, ?_⟩
        have hne : (⌊q⌋ : ℚ) < ⌈q⌉ := by
          have : Int.fract q = 1 / 2 := by linarith
          have h2 : q = (⌊q⌋ : ℚ) + 1 / 2 := by
            rw [hfr] at this; linarith
          calc (⌊q⌋ : ℚ) < q := by linarith [h2]
            _ ≤ ⌈q⌉ := hleceil
        have : ⌊q⌋ < ⌈q⌉ := by exact_mod_cast hne
        omega

theorem roundHalfEven_abs_le (q : ℚ) (M : ℤ) (h1 : -(M : ℚ) ≤ q) (h2 : q ≤ M) :
    -M ≤ roundHalfEven q ∧ roundHalfEven q ≤ M := by
  obtain ⟨hl, hr⟩ := roundHalfEven_mem q
  constructor
  · calc -M = ⌊(-M : ℚ)⌋ := by rw [← Int.cast_neg, Int.floor_intCast]
      _ ≤ ⌊q⌋ := Int.floor_le_floor (by push_cast; linarith)
      _ ≤ _ := hl
  · calc roundHalfEven q ≤ ⌈q⌉ := hr
      _ ≤ ⌈(M : ℚ)⌉ := Int.ceil_le_ceil (by push_cast; linarith)
      _ = M := Int.ceil_intCast M

/-- The encoding step of `queue_output_chunk` (app/main.py lines
186-221) for one sample: clamp to [-1, 1], scale by the signed integer
maximum of the bit depth (32767 for 16-bit, 2147483647 for 32-bit),
round to the nearest integer, and serialize little-endian; any other bit
depth raises (`none`). -/
def encode_sample (bits : ℕ) (x : ℚ) : Option (List ℕ) :=
  if bits = 16 then some (intToLEBytes 2 (roundHalfEven (clamp1 x * 32767)))
  else if bits = 32 then some (intToLEBytes 4 (roundHalfEven (clamp1 x * 2147483647)))
  else none

/-- The decoding step of `SampleSpec.read_chunk` for one sample
(ml/buffer_hs_tasnet.py lines 63-78): unpack the signed little-endian
integer and divide by `max_val = 2^(bits-1)`. -/
def decode_sample (bits : ℕ) (bs : List ℕ) : ℚ :=
  ((leBytesToInt (bits / 8) bs : ℤ) : ℚ) / 2 ^ (bits - 1)

/-- Encode one sample and decode it back. -/
def pcm_roundtrip (bits : ℕ) (x : ℚ) : Option ℚ :=
  (encode_sample bits x).map (decode_sample bits)

theorem clamp1_of_le (x : ℚ) (h1 : -1 ≤ x) (h2 : x ≤ 1) : clamp1 x = x := by
  rw [clamp1, min_eq_right h2, max_eq_right h1]

/-- C5 counterexample: at 16-bit depth and the in-range sample
`x = -163832/163835`, encoding scales by 32767 while decoding divides by
32768, so the round-trip returns `-16383/16384`, which differs from `x`
by about 1.4 quantization steps — strictly more than the claimed one step
`1/2^15`. -/
theorem pcm_roundtrip_one_step_counterexample :
    pcm_roundtrip 16 (-163832 / 163835) = some (-16383 / 16384) ∧
    ¬(|(-16383 / 16384 : ℚ) - (-163832 / 163835)| ≤ 1 / 2 ^ (16 - 1)) := by
  constructor
  · have hc : clamp1 (-163832 / 163835) = -163832 / 163835 :=
      clamp1_of_le _ (by norm_num) (by norm_num)
    have hm : (-163832 / 163835 : ℚ) * 32767 = -163832 / 5 := by norm_num
    have hfl : ⌊(-163832 / 5 : ℚ)⌋ = -32767 := by norm_num
    have hfr : Int.fract (-163832 / 5 : ℚ) = 3 / 5 := by
      rw [Int.fract, hfl]; norm_num
    have hce : ⌈(-163832 / 5 : ℚ)⌉ = -32766 := by
      rw [Int.ceil_eq_iff]
      norm_num
    have hr : roundHalfEven (-163832 / 5) = -32766 := by
      rw [roundHalfEven, hfr, if_neg (by norm_num), if_pos (by norm_num), hce]
    have henc : encode_sample 16 (-163832 / 163835) = some (intToLEBytes 2 (-32766)) := by
      rw [encode_sample, if_pos rfl, hc, hm, hr]
    rw [pcm_roundtrip, henc, Option.map_some']
    congr 1
    have hbytes : intToLEBytes 2 (-32766) = [2, 128] := by decide
    have hint : leBytesToInt 2 [2, 128] = -32766 := by decide
    rw [decode_sample, hbytes]
    norm_num [hint]
  · rw [not_le, lt_abs]
    left
    norm_num

/-- C5 amended: for both supported bit depths and every in-range sample,
decoding the encoded bytes returns a value within one and a half
quantization steps (`3/2 * 1/2^(bits-1)`) of the original — the extra
half step comes from the encoder scaling by `2^(bits-1) - 1` while the
decoder divides by `2^(bits-1)`. -/
theorem pcm_roundtrip_error_bound (bits : ℕ) (hb : bits = 16 ∨ bits = 32)
    (x : ℚ) (hx1 : -1 ≤ x) (hx2 : x ≤ 1) :
    (pcm_roundtrip bits x).isSome = true ∧
    |(pcm_roundtrip bits x).getD 0 - x| ≤ 3 / 2 * (1 / 2 ^ (bits - 1)) := by
  have hc := clamp1_of_le x hx1 hx2
  rcases hb with hb | hb <;> subst hb
  · have hq1 : -((32767 : ℤ) : ℚ) ≤ x * 32767 := by push_cast; nlinarith
    have hq2 : x * 32767 ≤ ((32767 : ℤ) : ℚ) := by push_cast; nlinarith
    obtain ⟨hz1, hz2⟩ := roundHalfEven_abs_le (x * 32767) 32767 hq1 hq2
    have hrt : leBytesToInt 2 (intToLEBytes 2 (roundHalfEven (x * 32767))) =
        roundHalfEven (x * 32767) :=
      intToLEBytes_roundtrip 2 (by norm_num) _ (by norm_num; omega) (by norm_num; omega)
    have henc : encode_sample 16 x =
        some (intToLEBytes 2 (roundHalfEven (x * 32767))) := by
      rw [encode_sample, if_pos rfl, hc]
    have hpt : pcm_roundtrip 16 x =
        some (decode_sample 16 (intToLEBytes 2 (roundHalfEven (x * 32767)))) := by
      rw [pcm_roundtrip, henc, Option.map_some']
    rw [hpt]
    refine ⟨rfl, ?_⟩
    rw [Option.getD_some, decode_sample]
    norm_num
    rw [hrt]
    have herr := roundHalfEven_err (x * 32767)
    rw [abs_le] at herr ⊢
    constructor <;> linarith [herr.1, herr.2]
  · have hq1 : -((2147483647 : ℤ) : ℚ) ≤ x * 2147483647 := by push_cast; nlinarith
    have hq2 : x * 2147483647 ≤ ((2147483647 : ℤ) : ℚ) := by push_cast; nlinarith
    obtain ⟨hz1, hz2⟩ := roundHalfEven_abs_le (x * 2147483647) 2147483647 hq1 hq2
    have hrt : leBytesToInt 4 (intToLEBytes 4 (roundHalfEven (x * 2147483647))) =
        roundHalfEven (x * 2147483647) :=
      intToLEBytes_roundtrip 4 (by norm_num) _ (by norm_num; omega) (by norm_num; omega)
    have henc : encode_sample 32 x =
        some (intToLEBytes 4 (roundHalfEven (x * 2147483647))) := by
      rw [encode_sample, if_neg (by norm_num), if_pos rfl, hc]
    have hpt : pcm_roundtrip 32 x =
        some (decode_sample 32 (intToLEBytes 4 (roundHalfEven (x * 2147483647)))) := by
      rw [pcm_roundtrip, henc, Option.map_some']
    rw [hpt]
    refine ⟨rfl, ?_⟩
    rw [Option.getD_some, decode_sample]
    norm_num
    rw [hrt]
    have herr := roundHalfEven_err (x * 2147483647)
    rw [abs_le] at herr ⊢
    constructor <;> linarith [herr.1, herr.2]

/-- Witness for `pcm_roundtrip_error_bound` at 16-bit depth and sample
1/3. -/
theorem pcm_roundtrip_error_bound_witness :
    ((16 = 16 ∨ 16 = 32) ∧ -1 ≤ (1 / 3 : ℚ) ∧ (1 / 3 : ℚ) ≤ 1) ∧
    ((pcm_roundtrip 16 (1 / 3)).isSome = true ∧
      |(pcm_roundtrip 16 (1 / 3)).getD 0 - 1 / 3| ≤ 3 / 2 * (1 / 2 ^ (16 - 1))) :=
  ⟨⟨Or.inl rfl, by norm_num, by norm_num⟩,
   pcm_roundtrip_error_bound 16 (Or.inl rfl) (1 / 3) (by norm_num) (by norm_num)⟩

/-! ## `SampleSpec.read_chunk` (ml/buffer_hs_tasnet.py lines 39-85)
The whole body runs inside `try/except`; the handler logs and returns
`None` — the same sentinel `audio_input_thread` interprets as
end-of-stream (app/main.py lines 53-55). -/

/-- `SampleSpec.bytes_per_sample` (ml/buffer_hs_tasnet.py lines 31-33). -/
def bytes_per_sample (bits : ℕ) : ℕ := bits / 8

/-- The body of `SampleSpec.read_chunk` before exception handling; `data`
is what `buf.read(chunk_bytes)` returned.  `.ok none` is the explicit
`return None` on empty data (end of stream); `.error` is a raised
exception (`ValueError` for an unsupported bit depth, the reshape error
for an odd stereo sample count); otherwise the padded bytes are unpacked
into signed samples, de-interleaved, and normalized by `2^(bits-1)`. -/
def read_chunk_inner (bits channels num_samples : ℕ) (data : List ℕ) :
    Except String (Option (List (List ℚ))) :=
  let chunk_bytes := num_samples * bytes_per_sample bits
  if data.isEmpty then .ok none
  else
    let padded := data ++ List.replicate (chunk_bytes - data.length) 0
    if bits ≠ 16 ∧ bits ≠ 32 then .error "Unsupported bit depth"
    else
      let bps := bytes_per_sample bits
      let n := padded.length / bps
      let samples : List ℤ :=
        (List.range n).map fun i => leBytesToInt bps ((padded.drop (i * bps)).take bps)
      if channels = 2 then
        if n % 2 = 0 then
          .ok (some [((List.range (n / 2)).map fun i => samples.getD (2 * i) 0).map
                       (fun s : ℤ => (s : ℚ) / 2 ^ (bits - 1)),
                     ((List.range (n / 2)).map fun i => samples.getD (2 * i + 1) 0).map
                       (fun s : ℤ => (s : ℚ) / 2 ^ (bits - 1))])
        else .error "cannot reshape"
      else .ok (some [samples.map (fun s : ℤ => (s : ℚ) / 2 ^ (bits - 1))])

/-- `SampleSpec.read_chunk` as its callers see it: the `except` handler
(ml/buffer_hs_tasnet.py lines 83-85) turns every raised error into
`None`. -/
def read_chunk (bits channels num_samples : ℕ) (data : List ℕ) :
    Option (List (List ℚ)) :=
  match read_chunk_inner bits channels num_samples data with
  | .ok v => v
  | .error _ => none

/-- C7: an unsupported bit depth (24) on non-empty input data raises a
`ValueError` inside `read_chunk`, but the blanket `except` converts it to
`None` — exactly the value that signals end-of-stream on empty input — so
the pipeline shuts down as if the stream had ended instead of failing
fatally, contradicting the claim. -/
theorem unsupported_bit_depth_masked_as_end_of_stream :
    read_chunk_inner 24 2 2 [7, 7, 7] = .error "Unsupported bit depth" ∧
    read_chunk 24 2 2 [7, 7, 7] = none ∧
    read_chunk 24 2 2 [] = none ∧
    read_chunk 16 2 2 [] = none := by
  refine ⟨rfl, rfl, rfl, rfl⟩

theorem read_chunk_inner_pad (bits channels n : ℕ) (data : List ℕ) (hne : data ≠ [])
    (hlen : data.length ≤ n * bytes_per_sample bits) :
    read_chunk_inner bits channels n
        (data ++ List.replicate (n * bytes_per_sample bits - data.length) 0) =
      read_chunk_inner bits channels n data := by
  have h1 : data.isEmpty = false := by
    cases data with
    | nil => exact absurd rfl hne
    | cons d ds => rfl
  have h2 : (data ++ List.replicate (n * bytes_per_sample bits - data.length) 0).isEmpty
      = false := by
    cases data with
    | nil => exact absurd rfl hne
    | cons d ds => rfl
  have hlen2 : (data ++ List.replicate (n * bytes_per_sample bits - data.length) 0).length
      = n * bytes_per_sample bits := by
    simp only [List.length_append, List.length_replicate]
    omega
  unfold read_chunk_inner
  simp only [h1, h2, Bool.false_eq_true, if_false, hlen2, Nat.sub_self,
    List.replicate_zero, List.append_nil]

/-- C8: reading zero bytes signals end-of-stream (`none`, not an error);
reading fewer bytes than requested zero-pads the shortfall, so the result
equals decoding the zero-padded buffer, decoding succeeds, and each of
the `channels` returned channel buffers holds exactly the requested
number of samples per channel. -/
theorem read_chunk_short_read_padding (bits channels num_samples : ℕ) (data : List ℕ)
    (hbits : bits = 16 ∨ bits = 32) (hch : channels = 1 ∨ channels = 2)
    (hne : data ≠ []) (hlen : data.length ≤ num_samples * bytes_per_sample bits)
    (hev : channels = 2 → num_samples % 2 = 0) :
    read_chunk bits channels num_samples [] = none
    ∧ read_chunk bits channels num_samples data =
        read_chunk bits channels num_samples
          (data ++ List.replicate (num_samples * bytes_per_sample bits - data.length) 0)
    ∧ (read_chunk bits channels num_samples data).isSome = true
    ∧ ((read_chunk bits channels num_samples data).getD []).map List.length =
        (if channels = 2 then [num_samples / 2, num_samples / 2] else [num_samples]) := by
  have h1 : data.isEmpty = false := by
    cases data with
    | nil => exact absurd rfl hne
    | cons d ds => rfl
  have hlen2 : (data ++ List.replicate (num_samples * bytes_per_sample bits - data.length) 0).length
      = num_samples * bytes_per_sample bits := by
    simp only [List.length_append, List.length_replicate]
    omega
  have hbps : 0 < bytes_per_sample bits := by
    rcases hbits with h | h <;> subst h <;> decide
  have hn : (data ++ List.replicate (num_samples * bytes_per_sample bits - data.length) 0).length
      / bytes_per_sample bits = num_samples := by
    rw [hlen2, Nat.mul_div_cancel _ hbps]
  refine ⟨by unfold read_chunk read_chunk_inner; rfl, ?_, ?_⟩
  · rw [read_chunk, read_chunk, read_chunk_inner_pad bits channels num_samples data hne hlen]
  · rw [read_chunk]
    unfold read_chunk_inner
    simp only [h1, Bool.false_eq_true, if_false, hn]
    rcases hch with h2 | h2 <;> subst h2
    · rcases hbits with h | h <;> subst h <;>
        rw [if_neg (by decide), if_neg (by decide)] <;>
        exact ⟨rfl, by
          rw [if_neg (show ¬(1 = 2) by decide), Option.getD_some, List.map_cons,
            List.map_nil, List.length_map, List.length_map, List.length_range]⟩
    · have he := hev rfl
      rcases hbits with h | h <;> subst h <;>
        rw [if_neg (by decide), if_pos rfl, if_pos he] <;>
        exact ⟨rfl, by
          rw [if_pos (show (2:ℕ) = 2 from rfl), Option.getD_some, List.map_cons,
            List.map_cons, List.map_nil, List.length_map, List.length_map,
            List.length_range, List.length_map, List.length_map, List.length_range]⟩

/-- Witness for `read_chunk_short_read_padding`: 16-bit stereo, four
requested samples (eight bytes), one byte actually read. -/
theorem read_chunk_short_read_padding_witness :
    (([1] : List ℕ) ≠ [] ∧ ([1] : List ℕ).length ≤ 4 * bytes_per_sample 16 ∧
      (4 : ℕ) % 2 = 0) ∧
    (read_chunk 16 2 4 [] = none
    ∧ read_chunk 16 2 4 [1] =
        read_chunk 16 2 4 ([1] ++ List.replicate (4 * bytes_per_sample 16 - ([1] : List ℕ).length) 0)
    ∧ (read_chunk 16 2 4 [1]).isSome = true
    ∧ ((read_chunk 16 2 4 [1]).getD []).map List.length =
        (if (2 : ℕ) = 2 then [4 / 2, 4 / 2] else [4])) :=
  ⟨⟨by decide, by decide, by decide⟩,
   read_chunk_short_read_padding 16 2 4 [1] (Or.inl rfl) (Or.inr rfl)
     (by decide) (by decide) (fun _ => by decide)⟩

/-! ## Input stage and overlap bookkeeping
`audio_input_thread` (app/main.py lines 45-79, identical copy in
ml/stream_separator.py lines 248-282) and the overlap removal of
`process_chunk` (app/main.py lines 249-254).  A waveform is modelled per
channel as a list of samples; `torch.cat(..., dim=-1)` is list append and
`tensor[:, -k:]` is `pyTakeLast`. -/

/-- Modelled from the spec: `SampleSpec.secs_to_samples` and
`secs_to_samples_1ch` are called in app/main.py lines 64 and 251-252 but
the `pal_stem_separator.buffer_hs_tasnet` module defining them is not in
the source tree; spec §3 says the spec provides "pure conversions between
seconds, samples, and bytes", so a duration converts to the per-channel
sample count `⌊secs * rate⌋`. -/
def secs_to_samples (rate : ℕ) (secs : ℚ) : ℕ := (⌊secs * rate⌋).toNat

/-- Python `xs[-k:]`: the last `k` elements, or the whole list when
`k = 0` (`-0` is `0`). -/
def pyTakeLast (k : ℕ) (xs : List ℚ) : List ℚ :=
  if k = 0 then xs else xs.drop (xs.length - k)

/-- The sequence of `input_audio_tensor`s built by `audio_input_thread`
(app/main.py lines 57-69): chunk 0 is the raw read; if overlap is
positive, chunk `n+1` is the trailing `secs_to_samples rate o` samples of
the previous `last_input_audio_tensor` prepended to the fresh raw read
`r (n+1)`. -/
def inputTensor (rate : ℕ) (o : ℚ) (r : ℕ → List ℚ) : ℕ → List ℚ
  | 0 => r 0
  | n + 1 =>
      if 0 < o then
        pyTakeLast (secs_to_samples rate o) (inputTensor rate o r n) ++ r (n + 1)
      else r (n + 1)

theorem pyTakeLast_length (k : ℕ) (xs : List ℚ) (h1 : 1 ≤ k) (h2 : k ≤ xs.length) :
    (pyTakeLast k xs).length = k := by
  rw [pyTakeLast, if_neg (by omega), List.length_drop]
  omega

theorem pyTakeLast_append (k : ℕ) (xs ys : List ℚ) (h1 : 1 ≤ k) (h2 : k ≤ ys.length) :
    pyTakeLast k (xs ++ ys) = pyTakeLast k ys := by
  rw [pyTakeLast, pyTakeLast, if_neg (by omega), if_neg (by omega)]
  have harith : (xs ++ ys).length - k = xs.length + (ys.length - k) := by
    rw [List.length_append]
    omega
  rw [harith, List.drop_append]

theorem secs_to_samples_mono (rate : ℕ) (a b : ℚ) (h : a ≤ b) :
    secs_to_samples rate a ≤ secs_to_samples rate b := by
  unfold secs_to_samples
  have := Int.floor_le_floor (mul_le_mul_of_nonneg_right h (by positivity : (0:ℚ) ≤ (rate:ℚ)))
  omega

theorem inputTensor_length (rate : ℕ) (c o : ℚ) (r : ℕ → List ℚ)
    (ho : 0 < o) (hc : 0 ≤ c) (hk1 : 1 ≤ secs_to_samples rate o)
    (hr : ∀ n, (r n).length = secs_to_samples rate (c + o)) :
    ∀ n, (inputTensor rate o r n).length =
      if n = 0 then secs_to_samples rate (c + o)
      else secs_to_samples rate o + secs_to_samples rate (c + o) := by
  have hso : secs_to_samples rate o ≤ secs_to_samples rate (c + o) :=
    secs_to_samples_mono rate o (c + o) (by linarith)
  intro n
  induction n with
  | zero => simpa [inputTensor] using hr 0
  | succ n ih =>
    rw [inputTensor, if_pos ho, List.length_append, hr (n + 1)]
    rw [pyTakeLast_length _ _ hk1]
    · simp
    · rw [ih]
      split <;> omega

/-- C3: for every chunk N > 0 of a run with positive overlap, the first
`overlap_secs` worth of samples of chunk N's `input_audio_tensor` equal
the trailing `overlap_secs` worth of samples of the tensor fed to the
model for chunk N−1, and that overlap segment comes from the raw bytes
read for chunk N−1 (the tail of `r (N-1)`), not from any processed
output. -/
theorem overlap_prepended_from_previous_raw_input (rate : ℕ) (c o : ℚ)
    (r : ℕ → List ℚ) (ho : 0 < o) (hc : 0 ≤ c)
    (hk1 : 1 ≤ secs_to_samples rate o)
    (hr : ∀ n, (r n).length = secs_to_samples rate (c + o)) (n : ℕ) :
    (inputTensor rate o r (n + 1)).take (secs_to_samples rate o) =
      pyTakeLast (secs_to_samples rate o) (inputTensor rate o r n)
    ∧ pyTakeLast (secs_to_samples rate o) (inputTensor rate o r n) =
      pyTakeLast (secs_to_samples rate o) (r n) := by
  have hso : secs_to_samples rate o ≤ secs_to_samples rate (c + o) :=
    secs_to_samples_mono rate o (c + o) (by linarith)
  have hlen := inputTensor_length rate c o r ho hc hk1 hr
  have hlenge : secs_to_samples rate o ≤ (inputTensor rate o r n).length := by
    rw [hlen n]
    split <;> omega
  constructor
  · rw [inputTensor, if_pos ho]
    exact List.take_left'
      (pyTakeLast_length (secs_to_samples rate o) (inputTensor rate o r n) hk1 hlenge)
  · cases n with
    | zero => rfl
    | succ m =>
      rw [inputTensor, if_pos ho,
        pyTakeLast_append _ _ _ hk1 (by rw [hr (m + 1)]; exact hso)]

/-- Witness for `overlap_prepended_from_previous_raw_input` at rate 1,
chunk 3 s, overlap 1 s, all-zero raw reads of four samples, chunk 2. -/
theorem overlap_prepended_from_previous_raw_input_witness :
    (0 < (1 : ℚ) ∧ 0 ≤ (3 : ℚ) ∧ 1 ≤ secs_to_samples 1 1) ∧
    ((inputTensor 1 1 (fun _ => List.replicate 4 (0 : ℚ)) 2).take (secs_to_samples 1 1) =
      pyTakeLast (secs_to_samples 1 1) (inputTensor 1 1 (fun _ => List.replicate 4 (0 : ℚ)) 1)
    ∧ pyTakeLast (secs_to_samples 1 1) (inputTensor 1 1 (fun _ => List.replicate 4 (0 : ℚ)) 1) =
      pyTakeLast (secs_to_samples 1 1) ((fun _ : ℕ => List.replicate 4 (0 : ℚ)) 1)) :=
  ⟨⟨by norm_num, by norm_num, by norm_num [secs_to_samples, Int.toNat_ofNat]⟩,
   overlap_prepended_from_previous_raw_input 1 3 1 (fun _ => List.replicate 4 (0 : ℚ))
     (by norm_num) (by norm_num) (by norm_num [secs_to_samples, Int.toNat_ofNat])
     (fun _ => by norm_num [secs_to_samples]; decide) 1⟩

/-! ## Overlap removal and truncation (`process_chunk`) -/

/-- `round_down_to_multiple` (ml/buffer_hs_tasnet.py lines 13-14). -/
def round_down_to_multiple (num mult : ℕ) : ℕ := num / mult * mult

/-- `remove_overlap_start` of chunk n (app/main.py lines 60-63): 0 for
the first chunk, `overlap_secs` afterwards when overlap is positive. -/
def removeStartSecs (o : ℚ) : ℕ → ℚ
  | 0 => 0
  | _ + 1 => if 0 < o then o else 0

/-- `remove_overlap_end` (app/main.py line 61): always `overlap_secs`. -/
def removeEndSecs (o : ℚ) : ℚ := o

/-- Sample length of chunk n's processed (post-separation) buffer: the
model preserves the sample count of what it is fed (spec §6), and
`process_audio_tensor` truncates its input to a multiple of the model
segment length first (ml/buffer_hs_tasnet.py lines 107-112). -/
def procLen (rate : ℕ) (o : ℚ) (seg : ℕ) (r : ℕ → List ℚ) (n : ℕ) : ℕ :=
  round_down_to_multiple (inputTensor rate o r n).length seg

/-- Length of the Python slice `l[a:-b]` on a list of length `P`
(`separated_audios[:, :, overlap_samples_start:-overlap_samples_end]`,
app/main.py line 253): `-0` is index 0, so `b = 0` yields the empty
slice. -/
def pySliceLen (a b P : ℕ) : ℕ := (if b = 0 then 0 else P - b) - a

/-- Sample length of chunk n's truncated buffer after the overlap-removal
branch of `process_chunk` (app/main.py lines 249-254). -/
def truncLen (rate : ℕ) (o : ℚ) (seg : ℕ) (r : ℕ → List ℚ) (n : ℕ) : ℕ :=
  if 0 < removeStartSecs o n + removeEndSecs o then
    pySliceLen (secs_to_samples rate (removeStartSecs o n))
      (secs_to_samples rate (removeEndSecs o)) (procLen rate o seg r n)
  else procLen rate o seg r n

theorem round_down_bounds (num mult : ℕ) (h : 0 < mult) :
    round_down_to_multiple num mult ≤ num ∧
      num < round_down_to_multiple num mult + mult := by
  unfold round_down_to_multiple
  refine ⟨Nat.div_mul_le_self num mult, ?_⟩
  have h2 := Nat.mod_lt num h
  calc num = mult * (num / mult) + num % mult := (Nat.div_add_mod num mult).symm
    _ < mult * (num / mult) + mult := by omega
    _ = num / mult * mult + mult := by ring

theorem secs_to_samples_superadd (rate : ℕ) (a b : ℚ) (ha : 0 ≤ a) (hb : 0 ≤ b) :
    secs_to_samples rate a + secs_to_samples rate b ≤ secs_to_samples rate (a + b) := by
  unfold secs_to_samples
  have hfa := Int.floor_nonneg.mpr (by positivity : (0:ℚ) ≤ a * rate)
  have hfb := Int.floor_nonneg.mpr (by positivity : (0:ℚ) ≤ b * rate)
  have hsum : ⌊a * rate⌋ + ⌊b * rate⌋ ≤ ⌊(a + b) * rate⌋ := by
    apply Int.le_floor.mpr
    push_cast
    have h1 := Int.floor_le (a * rate)
    have h2 := Int.floor_le (b * rate)
    nlinarith [h1, h2]
  omega

/-- C4: for every chunk, the truncated length equals the processed length
minus the overlap-start samples minus the overlap-end samples, that
difference is never negative, and chunk 0 has `remove_overlap_start = 0`
— under the spec's configuration validity: the chunk duration covers at
least one model segment and the overlap is zero or at least one
sample. -/
theorem truncation_length_invariant (rate : ℕ) (c o : ℚ) (seg : ℕ) (r : ℕ → List ℚ)
    (hc : 0 ≤ c) (ho : 0 ≤ o) (hseg : 0 < seg)
    (hcs : seg ≤ secs_to_samples rate c)
    (hover : o = 0 ∨ (0 < o ∧ 1 ≤ secs_to_samples rate o))
    (hr : ∀ n, (r n).length = secs_to_samples rate (c + o)) (n : ℕ) :
    (truncLen rate o seg r n : ℤ) =
      (procLen rate o seg r n : ℤ) - secs_to_samples rate (removeStartSecs o n)
        - secs_to_samples rate (removeEndSecs o)
    ∧ secs_to_samples rate (removeStartSecs o n) + secs_to_samples rate (removeEndSecs o)
        ≤ procLen rate o seg r n
    ∧ removeStartSecs o 0 = 0 := by
  have hzero : secs_to_samples rate 0 = 0 := by
    unfold secs_to_samples
    norm_num
  rcases hover with ho0 | ⟨hopos, hk1⟩
  · subst ho0
    have hend : removeEndSecs (0 : ℚ) = 0 := rfl
    have hstart : ∀ m, removeStartSecs (0 : ℚ) m = 0 := by
      intro m
      cases m with
      | zero => rfl
      | succ m => simp [removeStartSecs]
    refine ⟨?_, ?_, rfl⟩
    · rw [truncLen, if_neg (by rw [hstart, hend]; norm_num), hstart, hend, hzero]
      push_cast
      ring
    · rw [hstart, hend, hzero]
      omega
  · have hsuper := secs_to_samples_superadd rate c o hc ho
    have hlen := inputTensor_length rate c o r hopos hc hk1 hr
    have hstart0 : removeStartSecs o 0 = 0 := rfl
    have hkey : secs_to_samples rate (removeStartSecs o n) + secs_to_samples rate o
        < procLen rate o seg r n + 1 := by
      cases n with
      | zero =>
        have hL : (inputTensor rate o r 0).length = secs_to_samples rate (c + o) := by
          rw [hlen 0]
          simp
        have hP : procLen rate o seg r 0 =
            round_down_to_multiple (secs_to_samples rate (c + o)) seg := by
          rw [procLen, hL]
        have hb := round_down_bounds (secs_to_samples rate (c + o)) seg hseg
        rw [hstart0, hzero, hP]
        omega
      | succ m =>
        have hL : (inputTensor rate o r (m + 1)).length =
            secs_to_samples rate o + secs_to_samples rate (c + o) := by
          rw [hlen (m + 1)]
          simp
        have hP : procLen rate o seg r (m + 1) =
            round_down_to_multiple
              (secs_to_samples rate o + secs_to_samples rate (c + o)) seg := by
          rw [procLen, hL]
        have hsm : removeStartSecs o (m + 1) = o := by simp [removeStartSecs, hopos]
        have hb := round_down_bounds
          (secs_to_samples rate o + secs_to_samples rate (c + o)) seg hseg
        rw [hsm, hP]
        omega
    refine ⟨?_, ?_, rfl⟩
    · rw [truncLen, if_pos ?hpos]
      case hpos =>
        cases n with
        | zero =>
          rw [hstart0]
          simpa [removeEndSecs] using hopos
        | succ m =>
          have hsm : removeStartSecs o (m + 1) = o := by simp [removeStartSecs, hopos]
          rw [hsm]
          simp only [removeEndSecs]
          linarith
      rw [pySliceLen, if_neg (by unfold removeEndSecs; omega)]
      unfold removeEndSecs at hkey ⊢
      omega
    · unfold removeEndSecs at hkey ⊢
      omega

/-- Witness for `truncation_length_invariant` at rate 1, chunk 3 s,
overlap 1 s, segment length 2, all-zero raw reads of four samples,
chunk 1. -/
theorem truncation_length_invariant_witness :
    (0 ≤ (3 : ℚ) ∧ 0 ≤ (1 : ℚ) ∧ 0 < 2 ∧ 2 ≤ secs_to_samples 1 3 ∧
      (0 < (1 : ℚ) ∧ 1 ≤ secs_to_samples 1 1)) ∧
    ((truncLen 1 1 2 (fun _ => List.replicate 4 (0 : ℚ)) 1 : ℤ) =
      (procLen 1 1 2 (fun _ => List.replicate 4 (0 : ℚ)) 1 : ℤ)
        - secs_to_samples 1 (removeStartSecs 1 1)
        - secs_to_samples 1 (removeEndSecs 1)
    ∧ secs_to_samples 1 (removeStartSecs 1 1) + secs_to_samples 1 (removeEndSecs 1)
        ≤ procLen 1 1 2 (fun _ => List.replicate 4 (0 : ℚ)) 1
    ∧ removeStartSecs 1 0 = 0) :=
  ⟨⟨by norm_num, by norm_num, by norm_num, by norm_num [secs_to_samples, Int.toNat_ofNat],
    by norm_num, by norm_num [secs_to_samples, Int.toNat_ofNat]⟩,
   truncation_length_invariant 1 3 1 2 (fun _ => List.replicate 4 (0 : ℚ))
     (by norm_num) (by norm_num) (by norm_num) (by norm_num [secs_to_samples, Int.toNat_ofNat])
     (Or.inr ⟨by norm_num, by norm_num [secs_to_samples, Int.toNat_ofNat]⟩)
     (fun _ => by norm_num [secs_to_samples]; decide) 1⟩

/-! ## `BufferHSTasNet.process_audio_tensor`
(ml/buffer_hs_tasnet.py lines 98-141): the input is curtailed to a
multiple of the model's segment length before inference.  The external
network `forward` is modelled from the spec (§6: `separate` returns the
same sample count as its input). -/

/-- `process_audio_tensor` on one channel: truncate the time axis to the
largest multiple of `segment_len` (lines 109-112), then run the model. -/
def process_audio_tensor (forward : List ℚ → List ℚ) (segment_len : ℕ)
    (xs : List ℚ) : List ℚ :=
  forward (xs.take (round_down_to_multiple xs.length segment_len))

/-- C10: an input whose time-axis length is not a multiple of the model's
segment length is silently truncated to `⌊n/segment_len⌋ * segment_len`
samples before inference — the output has exactly that many samples, at
most `segment_len - 1` trailing samples are dropped, and no error is
reported (the function totals and returns the model output on the
prefix). -/
theorem process_audio_tensor_truncates (forward : List ℚ → List ℚ)
    (segment_len : ℕ) (hseg : 0 < segment_len)
    (hf : ∀ ys, (forward ys).length = ys.length) (xs : List ℚ) :
    process_audio_tensor forward segment_len xs =
      forward (xs.take (xs.length / segment_len * segment_len))
    ∧ (process_audio_tensor forward segment_len xs).length
        = xs.length / segment_len * segment_len
    ∧ xs.length / segment_len * segment_len ≤ xs.length
    ∧ xs.length - xs.length / segment_len * segment_len ≤ segment_len - 1 := by
  have hle : xs.length / segment_len * segment_len ≤ xs.length :=
    Nat.div_mul_le_self _ _
  refine ⟨rfl, ?_, hle, ?_⟩
  · rw [process_audio_tensor, hf, List.length_take, round_down_to_multiple]
    omega
  · have h1 := Nat.div_add_mod xs.length segment_len
    have h2 := Nat.mod_lt xs.length hseg
    have h3 : segment_len * (xs.length / segment_len) =
        xs.length / segment_len * segment_len := by ring
    omega

/-- Witness for `process_audio_tensor_truncates`: identity model, segment
length 3, a seven-sample buffer (one trailing sample short of handling
all seven — six are processed, one is dropped). -/
theorem process_audio_tensor_truncates_witness :
    (0 < 3) ∧
    (process_audio_tensor id 3 (List.replicate 7 (0 : ℚ)) =
      id ((List.replicate 7 (0 : ℚ)).take
        ((List.replicate 7 (0 : ℚ)).length / 3 * 3))
    ∧ (process_audio_tensor id 3 (List.replicate 7 (0 : ℚ))).length
        = (List.replicate 7 (0 : ℚ)).length / 3 * 3
    ∧ (List.replicate 7 (0 : ℚ)).length / 3 * 3 ≤ (List.replicate 7 (0 : ℚ)).length
    ∧ (List.replicate 7 (0 : ℚ)).length
        - (List.replicate 7 (0 : ℚ)).length / 3 * 3 ≤ 3 - 1) :=
  ⟨by decide,
   process_audio_tensor_truncates id 3 (by decide) (fun _ => rfl)
     (List.replicate 7 (0 : ℚ))⟩

/-! ## Inter-stage channels
`main` creates the two channels with `queue.Queue(maxsize=100)` in
ml/stream_separator.py lines 485-486, but with `queue.Queue()` — maxsize
0, which Python documents as an *infinite* queue — in app/main.py lines
350-351.  `queue.Queue.full()` is true iff `0 < maxsize ≤ qsize()`, and a
blocking `put` waits (modelled: leaves the state unchanged) exactly when
the queue is full. -/

/-- A Python `queue.Queue`: `maxsize = 0` means unbounded. -/
structure PyQueue (α : Type) where
  maxsize : ℕ
  items : List α
deriving DecidableEq

/-- `queue.Queue.full()`: `0 < maxsize <= qsize()`. -/
def qFull {α : Type} (q : PyQueue α) : Bool :=
  decide (0 < q.maxsize ∧ q.maxsize ≤ q.items.length)

/-- One channel operation: a producer `put` or a consumer `get`. -/
inductive QOp (α : Type) where
  | push (x : α)
  | pop

/-- Channel semantics: a blocking `put` appends at the tail unless the
queue is full (in which case the producer stays blocked and the state is
unchanged); `get` removes the head (FIFO). -/
def applyOp {α : Type} (q : PyQueue α) : QOp α → PyQueue α
  | .push x => if qFull q then q else ⟨q.maxsize, q.items ++ [x]⟩
  | .pop => ⟨q.maxsize, q.items.tail⟩

def applyOps {α : Type} (ops : List (QOp α)) (q : PyQueue α) : PyQueue α :=
  ops.foldl applyOp q

/-- The channels of ml/stream_separator.py line 485-486:
`queue.Queue(maxsize=100)`. -/
def mlChannel (α : Type) : PyQueue α := ⟨100, []⟩

/-- The channels of app/main.py lines 350-351: `queue.Queue()`, maxsize
0, unbounded. -/
def appChannel (α : Type) : PyQueue α := ⟨0, []⟩

theorem applyOp_bounded {α : Type} (q : PyQueue α) (op : QOp α)
    (hpos : 0 < q.maxsize) (h : q.items.length ≤ q.maxsize) :
    (applyOp q op).items.length ≤ q.maxsize ∧ (applyOp q op).maxsize = q.maxsize := by
  cases op with
  | push x =>
    rw [applyOp]
    by_cases hf : qFull q = true
    · rw [if_pos hf]
      exact ⟨h, rfl⟩
    · rw [if_neg hf]
      rw [qFull, decide_eq_true_iff] at hf
      push_neg at hf
      refine ⟨?_, rfl⟩
      have hlt := hf hpos
      simp only [List.length_append, List.length_cons, List.length_nil]
      omega
  | pop =>
    rw [applyOp]
    refine ⟨?_, rfl⟩
    show q.items.tail.length ≤ q.maxsize
    have := List.length_tail q.items
    omega

theorem applyOps_bounded {α : Type} (ops : List (QOp α)) :
    ∀ q : PyQueue α, 0 < q.maxsize → q.items.length ≤ q.maxsize →
      (applyOps ops q).items.length ≤ q.maxsize ∧ (applyOps ops q).maxsize = q.maxsize := by
  induction ops with
  | nil => intro q hpos h; exact ⟨h, rfl⟩
  | cons op ops ih =>
    intro q hpos h
    obtain ⟨h1, h2⟩ := applyOp_bounded q op hpos h
    obtain ⟨h3, h4⟩ := ih (applyOp q op) (h2 ▸ hpos) (h2 ▸ h1)
    rw [applyOps] at h3 h4 ⊢
    rw [List.foldl_cons]
    exact ⟨h2 ▸ h3, h4.trans h2⟩

set_option maxRecDepth 4000 in
/-- C9 counterexample: the channels created by `main` in app/main.py
(lines 350-351) have maxsize 0 — 101 consecutive pushes from empty all
succeed and leave 101 items queued, and the channel is never full (a push
onto it never blocks), so the channels of the app pipeline are not
bounded and provide no backpressure. -/
theorem app_channels_unbounded_counterexample :
    (applyOps (List.replicate 101 (QOp.push (0 : ℕ))) (appChannel ℕ)).items.length = 101
    ∧ qFull (⟨0, List.replicate 100 (0 : ℕ)⟩ : PyQueue ℕ) = false
    ∧ (applyOp (⟨0, List.replicate 100 (0 : ℕ)⟩ : PyQueue ℕ) (QOp.push 0)).items.length
        = 101 := by
  refine ⟨?_, by decide, ?_⟩
  · show ((List.replicate 101 (QOp.push (0 : ℕ))).foldl applyOp (appChannel ℕ)).items.length = 101
    decide
  · decide

/-- C9 amended: the channels as created in ml/stream_separator.py
(maxsize 100) are bounded FIFO queues — every state reachable by pushes
and pops from empty holds at most 100 items, a push onto the full channel
blocks (leaves the channel unchanged), a push onto a non-full channel
appends at the tail, and a pop removes the head; the channels as created
in app/main.py (no maxsize) are unbounded and pushes onto them never
block. -/
theorem ml_channels_bounded_fifo (ops : List (QOp ℕ)) :
    (applyOps ops (mlChannel ℕ)).items.length ≤ 100
    ∧ qFull (⟨100, List.replicate 100 (0 : ℕ)⟩ : PyQueue ℕ) = true
    ∧ applyOp (⟨100, List.replicate 100 (0 : ℕ)⟩ : PyQueue ℕ) (QOp.push 7)
        = ⟨100, List.replicate 100 0⟩
    ∧ (applyOp (⟨100, [1, 2]⟩ : PyQueue ℕ) (QOp.push 3)).items = [1, 2, 3]
    ∧ (applyOp (⟨100, [1, 2, 3]⟩ : PyQueue ℕ) QOp.pop).items = [2, 3] := by
  refine ⟨(applyOps_bounded ops (mlChannel ℕ) (by decide) (by decide)).1,
    by decide, by decide, by decide, by decide⟩

end PalStem
